import Mathlib

/-!
Shallow embedding of the lseq identifier generator (src/base.rs, src/ident.rs,
src/lseq.rs, src/strategy.rs) and proofs about its specification.

Arbitrary-precision `rug::Integer` digit values are embedded as `Nat` (all
digits in the system are non-negative); `interval`, which can be negative, is
embedded as `Int`.  `significant_bits` is embedded as the fuel-based `sigBits`
below.  Randomness (the drawn strategy of `LSEQStrategy::random` and the
output of `random_below`) is passed in as explicit oracle parameters, and the
unbounded `while` loops of the Rust code are embedded with explicit fuel,
returning `Option` (`none` exactly where the Rust loop would not terminate
within the given fuel, or where an `unwrap` would panic).
-/

namespace LSeq

/-- Fuel-based bit-length helper: `sigBitsAux fuel n` computes the number of
binary digits of `n`, provided `n ≤ fuel`. -/
def sigBitsAux : Nat → Nat → Nat
  | 0, _ => 0
  | fuel + 1, n => if n = 0 then 0 else sigBitsAux fuel (n / 2) + 1

/-- Bit length of a natural number, embedding `rug::Integer::significant_bits`
for the non-negative values used by this system: 0 for 0, and for `n > 0` the
position of the highest set bit plus one. -/
def sigBits (n : Nat) : Nat := sigBitsAux n n

/-- Bit-width policy `DoubleBase` of src/base.rs: parameterized by the initial
field width. -/
structure DoubleBase where
  initial : Nat
deriving DecidableEq

/-- Embeds `DoubleBase::new`: stores the given initial width, defaulting to 5.  Note
that the constructor performs no validation whatsoever. -/
def DoubleBase.new (initial : Option Nat) : DoubleBase :=
  ⟨initial.getD 5⟩

/-- Embeds `DoubleBase::get_initial_base`. -/
def DoubleBase.get_initial_base (b : DoubleBase) : Nat := b.initial

/-- Embeds `DoubleBase::get_base`: the field width of one depth. -/
def DoubleBase.get_base (b : DoubleBase) (depth : Nat) : Nat := b.initial + depth

/-- Embeds `DoubleBase::get_max`: `2 ^ get_base(depth) - 1`. -/
def DoubleBase.get_max (b : DoubleBase) (depth : Nat) : Nat :=
  2 ^ b.get_base depth - 1

/-- Embeds `DoubleBase::get_bits`: the cumulative bit width through a depth, computed
by the triangular-number closed form of the source (`n = get_base depth`,
`m = initial - 1`). -/
def DoubleBase.get_bits (b : DoubleBase) (depth : Nat) : Nat :=
  b.get_base depth * (b.get_base depth + 1) / 2 -
    (b.initial - 1) * (b.initial - 1 + 1) / 2

/-- Embeds `DoubleBase::normalize`: realign a length-encoded digit so its logical
length equals `get_bits depth`. -/
def DoubleBase.normalize (b : DoubleBase) (digit : Nat) (depth : Nat) : Nat :=
  let digit_len := sigBits digit - 1
  let total := b.get_bits depth
  if digit_len < total then digit <<< (total - digit_len)
  else digit >>> (digit_len - total)

/-- Embeds `DoubleBase::interval`: free slots strictly between two digits at a depth.
Returns the depth's own `get_max` when both digits are logically shorter than
the depth's cumulative width, otherwise the difference of the normalized
digits minus one (possibly negative, hence `Int`). -/
def DoubleBase.interval (b : DoubleBase) (left right : Nat) (depth : Nat) : Int :=
  let left_len := sigBits left - 1
  let right_len := sigBits right - 1
  let total := b.get_bits depth
  if left_len < total ∧ right_len < total then (b.get_max depth : Int)
  else (b.normalize right depth : Int) - (b.normalize left depth : Int) - 1

/-- The depth-finding loop at the start of `DoubleBase::split`
(`while size != self.get_bits(depth) { depth += 1 }`), with fuel; `none`
embeds divergence of the Rust loop. -/
def findDepthAux (b : DoubleBase) (size : Nat) : Nat → Nat → Option Nat
  | 0, _ => none
  | fuel + 1, depth =>
    if size = b.get_bits depth then some depth
    else findDepthAux b size fuel (depth + 1)

/-- The field-extraction loop of `DoubleBase::split`.  The remaining binary
string (after the guard bit) is represented by its length `len` and numeric
value `val < 2 ^ len`; `split_at(size + 1)` becomes division/remainder by a
power of two. -/
def splitAux (b : DoubleBase) : Nat → Nat → Nat → Nat → Nat → List Nat
  | 0, _, _, _, _ => []
  | fuel + 1, i, skip, len, val =>
    let sz := b.get_bits i - skip
    let front := val / 2 ^ (len - (sz + 1))
    let rest := val % 2 ^ (len - (sz + 1))
    front :: splitAux b fuel (i + 1) (skip + (sz + 1)) (len - (sz + 1)) rest

/-- Embeds `DoubleBase::split`: decode a length-encoded digit into its per-depth
fields.  The digit with guard bit stripped is `digit % 2 ^ size`. -/
def DoubleBase.split (b : DoubleBase) (digit : Nat) : Option (List Nat) :=
  let size := sigBits digit - 1
  match findDepthAux b size (size + 1) 0 with
  | none => none
  | some depth => some (splitAux b (depth + 1) 0 1 size (digit % 2 ^ size))

/-- Concatenation of decoded fields back into value bits, most-significant
field first; field `i` occupies `get_base i` bits. -/
def concatFields (b : DoubleBase) : Nat → Nat → List Nat → Nat
  | _, acc, [] => acc
  | i, acc, f :: fs => concatFields b (i + 1) (acc * 2 ^ b.get_base i + f) fs

/-- Cumulative width of all depths before `i` (`0` before depth 0). -/
def prevG (b : DoubleBase) : Nat → Nat
  | 0 => 0
  | i + 1 => b.get_bits i

/-- Comparison induced by a total order, as Rust's `Ord::cmp` of the owner
tag and of `rug::Integer` values. -/
def ocmp {M : Type} [LinearOrder M] (x y : M) : Ordering :=
  if x < y then Ordering.lt else if x = y then Ordering.eq else Ordering.gt

namespace ident

/-- The identifier of src/ident.rs: an owner tag plus a guard-bit-encoded
digit. -/
structure Ident (M : Type) where
  meta : M
  digit : Nat
deriving DecidableEq

/-- Embeds `Ord for Ident` of src/ident.rs: align raw bit-lengths by left-shifting
the shorter digit, compare aligned values, then owner tags, then the original
lengths. -/
def Ident.cmp {M : Type} [LinearOrder M] (a b : Ident M) : Ordering :=
  let self_length := sigBits a.digit
  let other_length := sigBits b.digit
  let pair : Nat × Nat :=
    if self_length > other_length then
      (a.digit, b.digit <<< (self_length - other_length))
    else
      (a.digit <<< (other_length - self_length), b.digit)
  let cmp_n := ocmp pair.1 pair.2
  if cmp_n ≠ Ordering.eq then cmp_n
  else
    let cmp_meta := ocmp a.meta b.meta
    if cmp_meta ≠ Ordering.eq then cmp_meta
    else ocmp self_length other_length

end ident

/-- Comparison of identifiers as worded in spec section 4.2: align the two
digits' raw bit-lengths by left-shifting the shorter one, compare aligned
values, then owner tags, then the original un-aligned bit-lengths. -/
def specCmp {M : Type} [LinearOrder M] (a b : ident.Ident M) : Ordering :=
  let la := sigBits a.digit
  let lb := sigBits b.digit
  let L := max la lb
  (ocmp (a.digit <<< (L - la)) (b.digit <<< (L - lb))).then
    ((ocmp a.meta b.meta).then (ocmp la lb))

/-- Alignment-free form of the first comparison stage: compare the two digits
as fixed-point fractions by cross-multiplying each with the other digit's
power-of-two raw length. -/
def crossCmp {M : Type} [LinearOrder M] (a b : ident.Ident M) : Ordering :=
  ocmp (a.digit * 2 ^ sigBits b.digit) (b.digit * 2 ^ sigBits a.digit)

/-- The allocation strategy of src/strategy.rs. -/
inductive LSEQStrategy : Type
  | AddFromLeft
  | SubtractFromRight
deriving DecidableEq

namespace lseq

/-- The identifier of src/lseq.rs: a replica tag plus a guard-bit-encoded
digit. -/
structure Ident (R : Type) where
  replica : R
  digit : Nat
deriving DecidableEq

/-- lseq.rs `Ident::new`: sets the guard bit at position `size`. -/
def Ident.new {R : Type} (replica : R) (digit : Nat) (size : Nat) : Ident R :=
  ⟨replica, digit ||| 2 ^ size⟩

/-- Embeds `Ord for Ident` of src/lseq.rs (textually the same algorithm as the one
in src/ident.rs, keyed by the replica tag). -/
def Ident.cmp {R : Type} [LinearOrder R] (a b : Ident R) : Ordering :=
  let self_length := sigBits a.digit
  let other_length := sigBits b.digit
  let pair : Nat × Nat :=
    if self_length > other_length then
      (a.digit, b.digit <<< (self_length - other_length))
    else
      (a.digit <<< (other_length - self_length), b.digit)
  let cmp_n := ocmp pair.1 pair.2
  if cmp_n ≠ Ordering.eq then cmp_n
  else
    let cmp_replica := ocmp a.replica b.replica
    if cmp_replica ≠ Ordering.eq then cmp_replica
    else ocmp self_length other_length

/-- Embeds `LSEQGenerator`: the strategy table (a `HashMap` in Rust) is embedded as a
function to `Option`. -/
structure LSEQGenerator where
  base : DoubleBase
  boundary : Nat
  strategies : Nat → Option LSEQStrategy

/-- Embeds `LSEQGenerator::new`: boundary defaults to 10, table starts empty.  Note
that the constructor performs no validation whatsoever. -/
def LSEQGenerator.new (base : DoubleBase) (boundary : Option Nat) : LSEQGenerator :=
  ⟨base, boundary.getD 10, fun _ => none⟩

/-- Embeds `LSEQGenerator::get_strategy`: the table lookup whose result Rust
`unwrap`s; the `none` case is the panic branch. -/
def LSEQGenerator.get_strategy (g : LSEQGenerator) (depth : Nat) :
    Option LSEQStrategy :=
  g.strategies depth

/-- Embeds `LSEQGenerator::ensure_strategy`: insert the (randomly drawn) strategy for
a depth only if the depth has no entry yet. -/
def LSEQGenerator.ensure_strategy (g : LSEQGenerator) (random : LSEQStrategy)
    (depth : Nat) : LSEQGenerator :=
  if (g.strategies depth).isSome then g
  else { g with strategies := fun d => if d = depth then some random else g.strategies d }

/-- The depth-search loop of `generate`
(`while interval < 1 { interval = ...; depth += 1 }`), with fuel; returns the
first depth (from `start`) whose interval is at least 1 together with that
interval. -/
def searchDepthAux (b : DoubleBase) (left right : Nat) :
    Nat → Nat → Option (Nat × Int)
  | 0, _ => none
  | fuel + 1, depth =>
    let i := b.interval left right depth
    if i < 1 then searchDepthAux b left right fuel (depth + 1)
    else some (depth, i)

/-- Embeds `LSEQGenerator::generate` of src/lseq.rs.  `rnd` is the strategy that
`LSEQStrategy::random()` would draw if the depth has no strategy yet, and
`rand` is the oracle behind `random_below(step)`, consumed as `rand % step`
so that the drawn delta ranges over exactly `1 ..= step`.  `fuel` bounds the
depth-search loop. -/
def LSEQGenerator.generate {R : Type} (g : LSEQGenerator) (replica : R)
    (left right : Option (Ident R)) (rnd : LSEQStrategy) (rand : Nat)
    (fuel : Nat) : Option (Ident R × LSEQGenerator) :=
  let first := Ident.new replica 0 (g.base.get_bits 0)
  let last := Ident.new replica (g.base.get_max 0) (g.base.get_bits 0)
  let left_v := left.getD first
  let right_v := right.getD last
  match searchDepthAux g.base left_v.digit right_v.digit fuel 0 with
  | none => none
  | some (depth, interval) =>
    let step : Int := max (min interval (g.boundary : Int)) 1
    let g2 := g.ensure_strategy rnd depth
    match g2.get_strategy depth with
    | none => none
    | some strategy =>
      let base_len := g.base.get_bits depth
      match strategy with
      | LSEQStrategy.AddFromLeft =>
        let prev_bit_count := sigBits left_v.digit - 1
        let left_n :=
          if prev_bit_count ≥ base_len then
            left_v.digit >>> (prev_bit_count - base_len)
          else
            left_v.digit <<< (base_len - prev_bit_count)
        let plus := rand % step.toNat + 1
        some (Ident.new replica (left_n + plus) (g.base.get_bits depth), g2)
      | LSEQStrategy.SubtractFromRight =>
        let prev_bit_count := sigBits right_v.digit - 1
        let right_n :=
          if prev_bit_count ≥ base_len then
            right_v.digit >>> (prev_bit_count - base_len)
          else
            right_v.digit <<< (base_len - prev_bit_count)
        let minus := rand % step.toNat + 1
        some (Ident.new replica (right_n - minus) (g.base.get_bits depth), g2)

end lseq

/-- Concrete instances for the order-preservation failure: a depth-0 digit
with value 2 and a depth-1 digit with fields (2, 0), as produced by the
generator itself (the depth-1 fields (2, 0) arise from a carry when adding a
delta to a digit with fields (1, 62)). -/
def c1Left : lseq.Ident Nat := ⟨0, 34⟩

/-- The right neighbor for the order-preservation failure: fields (2, 0) at
depth 1 (digit value bits 00010 000000 plus the guard bit at position 11). -/
def c1Right : lseq.Ident Nat := ⟨0, 2176⟩

/-- The generator for the order-preservation failure: all defaults
(initial width 5, boundary 10), empty strategy table. -/
def c1Gen : lseq.LSEQGenerator :=
  lseq.LSEQGenerator.new (DoubleBase.new none) none

/-- Checks that one run of `generate` between `c1Left` and `c1Right` (with the
given strategy oracle and randomness oracle) yields an identifier that fails
to sort strictly between its two neighbors. -/
def c1Check (s : LSEQStrategy) (rand : Nat) : Bool :=
  match lseq.LSEQGenerator.generate c1Gen 0 (some c1Left) (some c1Right) s rand 20 with
  | some (x, _) =>
    match lseq.Ident.cmp c1Left x, lseq.Ident.cmp x c1Right with
    | Ordering.lt, Ordering.lt => false
    | _, _ => true
  | none => false

/-- A generator whose depth-0 strategy is already assigned, used to witness
strategy stability. -/
def c5Gen : lseq.LSEQGenerator :=
  ⟨DoubleBase.new none, 10, fun d => if d = 0 then some LSEQStrategy.AddFromLeft else none⟩

/-- A fresh default generator (initial width 5, boundary 10, empty table). -/
def defaultGen : lseq.LSEQGenerator :=
  lseq.LSEQGenerator.new (DoubleBase.new none) none

/-!  Theorems. -/

theorem sigBitsAux_zero : ∀ fuel, sigBitsAux fuel 0 = 0 := by
  intro fuel; cases fuel <;> simp [sigBitsAux]

theorem sigBitsAux_spec : ∀ fuel n, 0 < n → n ≤ fuel →
    2 ^ (sigBitsAux fuel n - 1) ≤ n ∧ n < 2 ^ sigBitsAux fuel n := by
  intro fuel
  induction fuel with
  | zero => intro n hn hle; omega
  | succ fuel ih =>
    intro n hn hle
    rw [sigBitsAux]
    rw [if_neg (by omega)]
    rcases Nat.lt_or_ge n 2 with h2 | h2
    · have : n = 1 := by omega
      subst this
      simp [sigBitsAux_zero]
    · have hhalf : 0 < n / 2 := Nat.div_pos (by omega) (by norm_num)
      have hhalf2 : n / 2 ≤ fuel := by omega
      obtain ⟨hlo, hhi⟩ := ih (n / 2) hhalf hhalf2
      set k := sigBitsAux fuel (n / 2) with hk
      have hk1 : 1 ≤ k := by
        by_contra h
        have : k = 0 := by omega
        rw [this] at hhi; omega
      constructor
      · have : 2 ^ k = 2 * 2 ^ (k - 1) := by
          rw [← pow_succ']
          congr 1
          omega
        rw [Nat.add_sub_cancel, this]
        calc 2 * 2 ^ (k - 1) ≤ 2 * (n / 2) := by omega
          _ ≤ n := by omega
      · have : n < 2 * (n / 2) + 2 := by omega
        calc n < 2 * (n / 2) + 2 := this
          _ ≤ 2 * (2 ^ k - 1) + 2 := by omega
          _ = 2 ^ (k + 1) := by rw [pow_succ]; omega

theorem sigBits_spec (n : Nat) (hn : 0 < n) :
    2 ^ (sigBits n - 1) ≤ n ∧ n < 2 ^ sigBits n :=
  sigBitsAux_spec n n hn le_rfl

theorem sigBits_zero : sigBits 0 = 0 := rfl

theorem sigBits_pos (n : Nat) (hn : 0 < n) : 0 < sigBits n := by
  by_contra h
  have h0 : sigBits n = 0 := by omega
  have := (sigBits_spec n hn).2
  rw [h0] at this
  simp at this
  omega

/-- Uniqueness: `sigBits n = s + 1` exactly when `2 ^ s ≤ n < 2 ^ (s + 1)`. -/
theorem sigBits_eq_of (n s : Nat) (hlo : 2 ^ s ≤ n) (hhi : n < 2 ^ (s + 1)) :
    sigBits n = s + 1 := by
  have hn : 0 < n := lt_of_lt_of_le (Nat.pos_pow_of_pos s (by norm_num)) hlo
  obtain ⟨hlo', hhi'⟩ := sigBits_spec n hn
  have hp := sigBits_pos n hn
  by_contra h
  rcases Nat.lt_or_ge (sigBits n) (s + 1) with hc | hc
  · have : sigBits n ≤ s := by omega
    have : (2 : Nat) ^ sigBits n ≤ 2 ^ s := Nat.pow_le_pow_right (by norm_num) this
    omega
  · have hc2 : s + 1 ≤ sigBits n - 1 := by omega
    have : (2 : Nat) ^ (s + 1) ≤ 2 ^ (sigBits n - 1) :=
      Nat.pow_le_pow_right (by norm_num) hc2
    omega

theorem sigBits_two_pow (s : Nat) : sigBits (2 ^ s) = s + 1 :=
  sigBits_eq_of _ s le_rfl (Nat.pow_lt_pow_right (by norm_num) (by omega))

/-- For positive `n`, `n < 2 ^ m` iff `sigBits n ≤ m`. -/
theorem sigBits_le_iff (n m : Nat) (hn : 0 < n) : sigBits n ≤ m ↔ n < 2 ^ m := by
  obtain ⟨hlo, hhi⟩ := sigBits_spec n hn
  have hp := sigBits_pos n hn
  constructor
  · intro h
    exact lt_of_lt_of_le hhi (Nat.pow_le_pow_right (by norm_num) h)
  · intro h
    by_contra hc
    have : m ≤ sigBits n - 1 := by omega
    have : (2:Nat) ^ m ≤ 2 ^ (sigBits n - 1) := Nat.pow_le_pow_right (by norm_num) this
    omega

/-- For positive `n`, `2 ^ m ≤ n` iff `m < sigBits n`. -/
theorem two_pow_le_iff_lt_sigBits (n m : Nat) (hn : 0 < n) :
    2 ^ m ≤ n ↔ m < sigBits n := by
  rw [← not_iff_not]
  push_neg
  rw [← sigBits_le_iff n m hn]

/-- Helper: twice the triangular number `n * (n + 1) / 2` is `n * (n + 1)`. -/
theorem triangle_two_mul (n : Nat) : 2 * (n * (n + 1) / 2) = n * (n + 1) := by
  rw [Nat.two_mul_div_two_of_even]
  exact Nat.even_mul_succ_self n

/-- Recurrence for `get_bits`: each deeper level adds its own field width. -/
theorem get_bits_succ (b : DoubleBase) (hinit : 0 < b.initial) (d : Nat) :
    b.get_bits (d + 1) = b.get_bits d + b.get_base (d + 1) := by
  obtain ⟨k, hk⟩ : ∃ k, b.initial = k + 1 := ⟨b.initial - 1, by omega⟩
  unfold DoubleBase.get_bits DoubleBase.get_base
  rw [hk]
  simp only [Nat.add_sub_cancel]
  have h1 := triangle_two_mul (k + 1 + d)
  have h2 := triangle_two_mul (k + 1 + (d + 1))
  have h3 := triangle_two_mul k
  have hAB : (k + 1 + (d + 1)) * (k + 1 + (d + 1) + 1) =
      (k + 1 + d) * (k + 1 + d + 1) + 2 * (k + 1 + (d + 1)) := by ring
  have hCA : k * (k + 1) ≤ (k + 1 + d) * (k + 1 + d + 1) :=
    Nat.mul_le_mul (by omega) (by omega)
  have hle : k * (k + 1) / 2 ≤ (k + 1 + d) * (k + 1 + d + 1) / 2 :=
    Nat.div_le_div_right hCA
  omega

/-- Lemma: `get_bits` at depth 0 is the initial width. -/
theorem get_bits_zero (b : DoubleBase) (hinit : 0 < b.initial) :
    b.get_bits 0 = b.initial := by
  obtain ⟨k, hk⟩ : ∃ k, b.initial = k + 1 := ⟨b.initial - 1, by omega⟩
  unfold DoubleBase.get_bits DoubleBase.get_base
  rw [hk]
  simp only [Nat.add_sub_cancel]
  have h1 := triangle_two_mul (k + 1 + 0)
  have h3 := triangle_two_mul k
  have hA : (k + 1 + 0) * (k + 1 + 0 + 1) = k * (k + 1) + 2 * (k + 1) := by ring
  omega

/-- Lemma: `get_bits` dominates the depth: the cumulative width through depth `d` is
at least `d + 1`. -/
theorem get_bits_ge (b : DoubleBase) (hinit : 0 < b.initial) (d : Nat) :
    d + 1 ≤ b.get_bits d := by
  induction d with
  | zero => rw [get_bits_zero b hinit]; omega
  | succ d ih =>
    rw [get_bits_succ b hinit]
    unfold DoubleBase.get_base
    omega

/-- Lemma: `get_bits` is strictly monotone (for a positive initial width). -/
theorem get_bits_strict_mono (b : DoubleBase) (hinit : 0 < b.initial) :
    StrictMono b.get_bits := by
  apply strictMono_nat_of_lt_succ
  intro d
  rw [get_bits_succ b hinit]
  unfold DoubleBase.get_base
  omega

theorem get_bits_mono (b : DoubleBase) (hinit : 0 < b.initial) {i j : Nat}
    (h : i ≤ j) : b.get_bits i ≤ b.get_bits j :=
  (get_bits_strict_mono b hinit).monotone h

/-- Each depth's own field width is at most the cumulative width there. -/
theorem get_base_le_get_bits (b : DoubleBase) (hinit : 0 < b.initial) (d : Nat) :
    b.get_base d ≤ b.get_bits d := by
  induction d with
  | zero => rw [get_bits_zero b hinit]; unfold DoubleBase.get_base; omega
  | succ d ih =>
    rw [get_bits_succ b hinit]
    omega

/-!  Ordering and `ocmp` helper lemmas. -/

theorem ite_ne_eq_then (o p : Ordering) :
    (if o ≠ Ordering.eq then o else p) = o.then p := by
  cases o <;> simp [Ordering.then]

theorem then_eq_lt (x y : Ordering) :
    x.then y = Ordering.lt ↔ x = Ordering.lt ∨ (x = Ordering.eq ∧ y = Ordering.lt) := by
  cases x <;> simp [Ordering.then]

theorem then_eq_eq (x y : Ordering) :
    x.then y = Ordering.eq ↔ x = Ordering.eq ∧ y = Ordering.eq := by
  cases x <;> simp [Ordering.then]

theorem then_swap (x y : Ordering) : (x.then y).swap = x.swap.then y.swap := by
  cases x <;> rfl

theorem swap_eq_gt (x : Ordering) : x.swap = Ordering.gt ↔ x = Ordering.lt := by
  cases x <;> simp [Ordering.swap]

theorem ocmp_lt_iff {M : Type} [LinearOrder M] (x y : M) :
    ocmp x y = Ordering.lt ↔ x < y := by
  unfold ocmp
  split_ifs with h1 h2
  · exact iff_of_true rfl h1
  · exact iff_of_false (by decide) h1
  · exact iff_of_false (by decide) h1

theorem ocmp_eq_iff {M : Type} [LinearOrder M] (x y : M) :
    ocmp x y = Ordering.eq ↔ x = y := by
  unfold ocmp
  split_ifs with h1 h2
  · exact iff_of_false (by decide) (ne_of_lt h1)
  · exact iff_of_true rfl h2
  · exact iff_of_false (by decide) h2

theorem ocmp_gt_iff {M : Type} [LinearOrder M] (x y : M) :
    ocmp x y = Ordering.gt ↔ y < x := by
  unfold ocmp
  split_ifs with h1 h2
  · exact iff_of_false (by decide) (lt_asymm h1)
  · exact iff_of_false (by decide) (by subst h2; exact lt_irrefl x)
  · exact iff_of_true rfl (((lt_trichotomy x y).resolve_left h1).resolve_left h2)

theorem ocmp_swap {M : Type} [LinearOrder M] (x y : M) :
    ocmp y x = (ocmp x y).swap := by
  rcases lt_trichotomy x y with h | h | h
  · rw [(ocmp_lt_iff x y).mpr h, (ocmp_gt_iff y x).mpr h]; rfl
  · subst h
    rw [(ocmp_eq_iff x x).mpr rfl]; rfl
  · rw [(ocmp_gt_iff x y).mpr h, (ocmp_lt_iff y x).mpr h]; rfl

theorem ocmp_mul_right (x y k : Nat) (hk : 0 < k) :
    ocmp (x * k) (y * k) = ocmp x y := by
  unfold ocmp
  rcases lt_trichotomy x y with h | h | h
  · rw [if_pos ((Nat.mul_lt_mul_right hk).mpr h), if_pos h]
  · subst h
    rw [if_neg (lt_irrefl _), if_pos rfl, if_neg (lt_irrefl _), if_pos rfl]
  · have hgt : y * k < x * k := (Nat.mul_lt_mul_right hk).mpr h
    rw [if_neg (Nat.lt_asymm hgt), if_neg (fun he => Nat.lt_irrefl _ (he ▸ hgt)),
      if_neg (Nat.lt_asymm h), if_neg (fun he => Nat.lt_irrefl _ (he ▸ h))]

/-- The comparison of src/ident.rs in lexicographic `then` form, with the
first stage expressed by cross-multiplication. -/
theorem cmp_eq_cross_then {M : Type} [LinearOrder M] (a b : ident.Ident M) :
    ident.Ident.cmp a b =
      (crossCmp a b).then ((ocmp a.meta b.meta).then
        (ocmp (sigBits a.digit) (sigBits b.digit))) := by
  unfold ident.Ident.cmp crossCmp
  by_cases h : sigBits b.digit < sigBits a.digit
  · simp only [gt_iff_lt, if_pos h, ite_ne_eq_then]
    congr 1
    rw [Nat.shiftLeft_eq, ← ocmp_mul_right a.digit _ (2 ^ sigBits b.digit)
      (Nat.pos_pow_of_pos _ (by norm_num)), mul_assoc, ← pow_add,
      Nat.sub_add_cancel h.le]
  · simp only [gt_iff_lt, if_neg h, ite_ne_eq_then]
    congr 1
    rw [Nat.shiftLeft_eq, ← ocmp_mul_right _ b.digit (2 ^ sigBits a.digit)
      (Nat.pos_pow_of_pos _ (by norm_num)), mul_assoc, ← pow_add,
      Nat.sub_add_cancel (le_of_not_lt h)]

/-- The spec-worded comparison coincides with the same `then` form. -/
theorem specCmp_eq_cross_then {M : Type} [LinearOrder M] (a b : ident.Ident M) :
    specCmp a b =
      (crossCmp a b).then ((ocmp a.meta b.meta).then
        (ocmp (sigBits a.digit) (sigBits b.digit))) := by
  unfold specCmp crossCmp
  dsimp only
  congr 1
  rcases Nat.le_total (sigBits a.digit) (sigBits b.digit) with h | h
  · rw [Nat.max_eq_right h, Nat.shiftLeft_eq, Nat.shiftLeft_eq, Nat.sub_self,
      pow_zero, mul_one, ← ocmp_mul_right _ b.digit (2 ^ sigBits a.digit)
      (Nat.pos_pow_of_pos _ (by norm_num)), mul_assoc, ← pow_add,
      Nat.sub_add_cancel h]
  · rw [Nat.max_eq_left h, Nat.shiftLeft_eq, Nat.shiftLeft_eq, Nat.sub_self,
      pow_zero, mul_one, ← ocmp_mul_right a.digit _ (2 ^ sigBits b.digit)
      (Nat.pos_pow_of_pos _ (by norm_num)), mul_assoc, ← pow_add,
      Nat.sub_add_cancel h]

/-!  Cross-multiplication transitivity facts. -/

theorem cross_lt_lt {a b c la lb lc : Nat} (h1 : a * 2 ^ lb < b * 2 ^ la)
    (h2 : b * 2 ^ lc < c * 2 ^ lb) : a * 2 ^ lc < c * 2 ^ la := by
  have h1' : a * 2 ^ lb * 2 ^ lc < b * 2 ^ la * 2 ^ lc :=
    (Nat.mul_lt_mul_right (Nat.pos_pow_of_pos _ (by norm_num))).mpr h1
  have h2' : b * 2 ^ lc * 2 ^ la < c * 2 ^ lb * 2 ^ la :=
    (Nat.mul_lt_mul_right (Nat.pos_pow_of_pos _ (by norm_num))).mpr h2
  have e1 : b * 2 ^ la * 2 ^ lc = b * 2 ^ lc * 2 ^ la := by ring
  rw [e1] at h1'
  have h3 : a * 2 ^ lb * 2 ^ lc < c * 2 ^ lb * 2 ^ la := lt_trans h1' h2'
  have e2 : a * 2 ^ lb * 2 ^ lc = a * 2 ^ lc * 2 ^ lb := by ring
  have e3 : c * 2 ^ lb * 2 ^ la = c * 2 ^ la * 2 ^ lb := by ring
  rw [e2, e3] at h3
  exact lt_of_mul_lt_mul_right h3 (Nat.zero_le _)

theorem cross_eq_lt {a b c la lb lc : Nat} (h1 : a * 2 ^ lb = b * 2 ^ la)
    (h2 : b * 2 ^ lc < c * 2 ^ lb) : a * 2 ^ lc < c * 2 ^ la := by
  have h2' : b * 2 ^ lc * 2 ^ la < c * 2 ^ lb * 2 ^ la :=
    (Nat.mul_lt_mul_right (Nat.pos_pow_of_pos _ (by norm_num))).mpr h2
  have e1 : b * 2 ^ lc * 2 ^ la = b * 2 ^ la * 2 ^ lc := by ring
  rw [e1, ← h1] at h2'
  have e2 : a * 2 ^ lb * 2 ^ lc = a * 2 ^ lc * 2 ^ lb := by ring
  have e3 : c * 2 ^ lb * 2 ^ la = c * 2 ^ la * 2 ^ lb := by ring
  rw [e2, e3] at h2'
  exact lt_of_mul_lt_mul_right h2' (Nat.zero_le _)

theorem cross_lt_eq {a b c la lb lc : Nat} (h1 : a * 2 ^ lb < b * 2 ^ la)
    (h2 : b * 2 ^ lc = c * 2 ^ lb) : a * 2 ^ lc < c * 2 ^ la := by
  have h1' : a * 2 ^ lb * 2 ^ lc < b * 2 ^ la * 2 ^ lc :=
    (Nat.mul_lt_mul_right (Nat.pos_pow_of_pos _ (by norm_num))).mpr h1
  have e1 : b * 2 ^ la * 2 ^ lc = b * 2 ^ lc * 2 ^ la := by ring
  rw [e1, h2] at h1'
  have e2 : a * 2 ^ lb * 2 ^ lc = a * 2 ^ lc * 2 ^ lb := by ring
  have e3 : c * 2 ^ lb * 2 ^ la = c * 2 ^ la * 2 ^ lb := by ring
  rw [e2, e3] at h1'
  exact lt_of_mul_lt_mul_right h1' (Nat.zero_le _)

theorem cross_eq_eq {a b c la lb lc : Nat} (h1 : a * 2 ^ lb = b * 2 ^ la)
    (h2 : b * 2 ^ lc = c * 2 ^ lb) : a * 2 ^ lc = c * 2 ^ la := by
  have h2' : b * 2 ^ lc * 2 ^ la = c * 2 ^ lb * 2 ^ la := by rw [h2]
  have e1 : b * 2 ^ lc * 2 ^ la = b * 2 ^ la * 2 ^ lc := by ring
  rw [e1, ← h1] at h2'
  have e2 : a * 2 ^ lb * 2 ^ lc = a * 2 ^ lc * 2 ^ lb := by ring
  have e3 : c * 2 ^ lb * 2 ^ la = c * 2 ^ la * 2 ^ lb := by ring
  rw [e2, e3] at h2'
  exact Nat.eq_of_mul_eq_mul_right (Nat.pos_pow_of_pos _ (by norm_num)) h2'

theorem crossCmp_swap {M : Type} [LinearOrder M] (a b : ident.Ident M) :
    crossCmp b a = (crossCmp a b).swap := by
  unfold crossCmp
  exact ocmp_swap _ _

theorem crossCmp_self {M : Type} [LinearOrder M] (a : ident.Ident M) :
    crossCmp a a = Ordering.eq := by
  unfold crossCmp
  exact (ocmp_eq_iff _ _).mpr rfl

/-- Swapping the arguments of the src/ident.rs comparison swaps the result. -/
theorem cmp_swap {M : Type} [LinearOrder M] (a b : ident.Ident M) :
    ident.Ident.cmp b a = (ident.Ident.cmp a b).swap := by
  rw [cmp_eq_cross_then b a, cmp_eq_cross_then a b, then_swap, then_swap,
    ← crossCmp_swap, ← ocmp_swap, ← ocmp_swap]

/-- The src/ident.rs comparison returns `eq` exactly on equal identifiers. -/
theorem cmp_eq_iff_eq {M : Type} [LinearOrder M] (a b : ident.Ident M) :
    ident.Ident.cmp a b = Ordering.eq ↔ a = b := by
  rw [cmp_eq_cross_then, then_eq_eq, then_eq_eq]
  constructor
  · rintro ⟨h1, h2, h3⟩
    unfold crossCmp at h1
    rw [ocmp_eq_iff] at h1 h2 h3
    obtain ⟨am, ad⟩ := a
    obtain ⟨bm, bd⟩ := b
    simp only at h1 h2 h3 ⊢
    rw [h3] at h1
    have hd : ad = bd :=
      Nat.eq_of_mul_eq_mul_right (Nat.pos_pow_of_pos _ (by norm_num)) h1
    simp [h2, hd]
  · rintro rfl
    exact ⟨crossCmp_self a, (ocmp_eq_iff _ _).mpr rfl, (ocmp_eq_iff _ _).mpr rfl⟩

/-- The src/ident.rs comparison is transitive on `lt`. -/
theorem cmp_trans {M : Type} [LinearOrder M] (a b c : ident.Ident M)
    (h1 : ident.Ident.cmp a b = Ordering.lt)
    (h2 : ident.Ident.cmp b c = Ordering.lt) :
    ident.Ident.cmp a c = Ordering.lt := by
  rw [cmp_eq_cross_then] at h1 h2 ⊢
  rw [then_eq_lt] at h1 h2 ⊢
  unfold crossCmp at h1 h2 ⊢
  rcases h1 with h1 | ⟨h1e, h1r⟩ <;> rcases h2 with h2 | ⟨h2e, h2r⟩
  · left
    rw [ocmp_lt_iff] at h1 h2 ⊢
    exact cross_lt_lt h1 h2
  · left
    rw [ocmp_lt_iff] at h1 ⊢
    rw [ocmp_eq_iff] at h2e
    exact cross_lt_eq h1 h2e
  · left
    rw [ocmp_eq_iff] at h1e
    rw [ocmp_lt_iff] at h2 ⊢
    exact cross_eq_lt h1e h2
  · right
    rw [ocmp_eq_iff] at h1e h2e
    refine ⟨(ocmp_eq_iff _ _).mpr (cross_eq_eq h1e h2e), ?_⟩
    rw [then_eq_lt] at h1r h2r ⊢
    rcases h1r with hm1 | ⟨hm1, hl1⟩ <;> rcases h2r with hm2 | ⟨hm2, hl2⟩
    · left
      rw [ocmp_lt_iff] at hm1 hm2 ⊢
      exact lt_trans hm1 hm2
    · left
      rw [ocmp_eq_iff] at hm2
      rw [← hm2]
      exact hm1
    · left
      rw [ocmp_eq_iff] at hm1
      rw [hm1]
      exact hm2
    · right
      rw [ocmp_eq_iff] at hm1 hm2
      refine ⟨(ocmp_eq_iff _ _).mpr (hm1.trans hm2), ?_⟩
      rw [ocmp_lt_iff] at hl1 hl2 ⊢
      exact lt_trans hl1 hl2

/-- C2: the identifier comparison orders a pair by aligning the shorter
digit's raw bit-length by a left shift, comparing the aligned values, then the
owner tags by their total order, then the original un-aligned bit-lengths with
shorter first (it equals the spec-worded `specCmp`); and the resulting
relation is a total order: `eq` holds exactly on equal identifiers, `lt` is
the swap of `gt`, and `lt` is transitive. -/
theorem c2_cmp_follows_spec_and_total_order {M : Type} [LinearOrder M]
    (a b c : ident.Ident M) :
    ident.Ident.cmp a b = specCmp a b ∧
    (ident.Ident.cmp a b = Ordering.eq ↔ a = b) ∧
    (ident.Ident.cmp a b = Ordering.lt ↔ ident.Ident.cmp b a = Ordering.gt) ∧
    (ident.Ident.cmp a b = Ordering.lt → ident.Ident.cmp b c = Ordering.lt →
      ident.Ident.cmp a c = Ordering.lt) := by
  refine ⟨?_, cmp_eq_iff_eq a b, ?_, cmp_trans a b c⟩
  · rw [cmp_eq_cross_then, specCmp_eq_cross_then]
  · rw [cmp_swap a b, swap_eq_gt]

/-- Witness for C2 at concrete identifiers, including an application of the
transitivity hypothesis. -/
theorem c2_witness :
    ident.Ident.cmp (⟨0, 34⟩ : ident.Ident Nat) ⟨1, 35⟩ = Ordering.lt ∧
    ident.Ident.cmp (⟨1, 35⟩ : ident.Ident Nat) ⟨0, 36⟩ = Ordering.lt ∧
    ident.Ident.cmp (⟨0, 34⟩ : ident.Ident Nat) ⟨0, 36⟩ = Ordering.lt :=
  ⟨by decide, by decide,
    (c2_cmp_follows_spec_and_total_order ⟨0, 34⟩ ⟨1, 35⟩ ⟨0, 36⟩).2.2.2
      (by decide) (by decide)⟩

/-- C8 counterexample: two distinct identifiers with equal owner tags whose
digits are equal after aligning bit-lengths (digit 34 at logical length 5,
digit 2176 = 34 shifted by 6 at logical length 11).  The comparison reaches
the final length branch and returns `lt`, so the identifiers are well-ordered,
but they are not equal, refuting the claim that the branch is reachable only
for literally identical identifiers. -/
theorem c8_counterexample :
    (⟨0, 34⟩ : ident.Ident Nat).meta = (⟨0, 2176⟩ : ident.Ident Nat).meta ∧
    (⟨0, 34⟩ : ident.Ident Nat).digit <<< (sigBits 2176 - sigBits 34) =
      (⟨0, 2176⟩ : ident.Ident Nat).digit ∧
    ident.Ident.cmp (⟨0, 34⟩ : ident.Ident Nat) ⟨0, 2176⟩ = Ordering.lt ∧
    (⟨0, 34⟩ : ident.Ident Nat) ≠ ⟨0, 2176⟩ := by
  refine ⟨rfl, by decide, by decide, by decide⟩

/-- C8 (amended): the final tie-breaking branch returns `eq` only for
literally identical identifiers; a pair with equal owner tags, digits equal
after aligning, and equal raw bit-lengths is equal. -/
theorem c8_amended_tie_break {M : Type} [LinearOrder M] (a b : ident.Ident M)
    (hm : a.meta = b.meta)
    (ha : a.digit <<< (max (sigBits a.digit) (sigBits b.digit) - sigBits a.digit) =
      b.digit <<< (max (sigBits a.digit) (sigBits b.digit) - sigBits b.digit))
    (hl : sigBits a.digit = sigBits b.digit) : a = b := by
  obtain ⟨am, ad⟩ := a
  obtain ⟨bm, bd⟩ := b
  simp only at hm ha hl ⊢
  rw [hl, Nat.max_self, Nat.sub_self] at ha
  simp only [Nat.shiftLeft_zero] at ha
  simp [hm, ha]

/-- Witness for the amended C8 at a concrete pair. -/
theorem c8_witness :
    (⟨0, 34⟩ : ident.Ident Nat).meta = (⟨0, 34⟩ : ident.Ident Nat).meta ∧
    (⟨0, 34⟩ : ident.Ident Nat).digit <<<
        (max (sigBits (⟨0, 34⟩ : ident.Ident Nat).digit)
          (sigBits (⟨0, 34⟩ : ident.Ident Nat).digit) -
          sigBits (⟨0, 34⟩ : ident.Ident Nat).digit) =
      (⟨0, 34⟩ : ident.Ident Nat).digit <<<
        (max (sigBits (⟨0, 34⟩ : ident.Ident Nat).digit)
          (sigBits (⟨0, 34⟩ : ident.Ident Nat).digit) -
          sigBits (⟨0, 34⟩ : ident.Ident Nat).digit) ∧
    sigBits (⟨0, 34⟩ : ident.Ident Nat).digit =
      sigBits (⟨0, 34⟩ : ident.Ident Nat).digit ∧
    (⟨0, 34⟩ : ident.Ident Nat) = ⟨0, 34⟩ :=
  ⟨rfl, rfl, rfl, c8_amended_tie_break ⟨0, 34⟩ ⟨0, 34⟩ rfl rfl rfl⟩

/-- C10: the two identifier comparison implementations (src/ident.rs keyed by
the owner tag, src/lseq.rs keyed by the replica tag) compute the same
ordering on every pair of (tag, digit) values. -/
theorem c10_cmp_implementations_agree {M : Type} [LinearOrder M]
    (m1 m2 : M) (d1 d2 : Nat) :
    ident.Ident.cmp ⟨m1, d1⟩ ⟨m2, d2⟩ = lseq.Ident.cmp ⟨m1, d1⟩ ⟨m2, d2⟩ := rfl

/-- C6: for every depth and every (positive) initial width, the cumulative
bit-width computed by `get_bits` through its triangular-number closed form
`n * (n + 1) / 2 - m * (m + 1) / 2` (with `n = get_base depth` and
`m = initial - 1`) equals the sum of the per-depth field widths
`get_base k = initial + k` for `k = 0 .. depth`. -/
theorem c6_get_bits_closed_form (initial d : Nat) (hinit : 0 < initial) :
    (DoubleBase.mk initial).get_bits d =
      ∑ k ∈ Finset.range (d + 1), (DoubleBase.mk initial).get_base k := by
  induction d with
  | zero =>
    rw [get_bits_zero _ hinit, Finset.sum_range_one]
    rfl
  | succ d ih =>
    rw [get_bits_succ _ hinit, Finset.sum_range_succ, ih]

/-- Witness for C6 at the default initial width 5 and depth 2. -/
theorem c6_witness :
    0 < 5 ∧ (DoubleBase.mk 5).get_bits 2 =
      ∑ k ∈ Finset.range 3, (DoubleBase.mk 5).get_base k :=
  ⟨by decide, c6_get_bits_closed_form 5 2 (by decide)⟩

/-- C7 (evaluation at the failing input): constructing a policy with initial
width 0 and a generator with boundary 0 succeeds and simply stores the
invalid configuration; nothing fails at construction time, contradicting the
claim that these configuration errors are rejected at construction. -/
theorem c7_construction_accepts_invalid_config :
    DoubleBase.new (some 0) = ⟨0⟩ ∧
    (lseq.LSEQGenerator.new (DoubleBase.new (some 0)) (some 0)).boundary = 0 ∧
    (lseq.LSEQGenerator.new (DoubleBase.new (some 0)) (some 0)).base.initial = 0 :=
  ⟨rfl, rfl, rfl⟩

/-- C1 (evaluation at the failing input): between the well-ordered neighbors
`c1Left` (depth-0 digit with value 2) and `c1Right` (depth-1 digit with
fields (2, 0)), `generate` stops at depth 2 through the early-return branch
of `interval` and, for every strategy assignment and every possible random
delta (1 through 10, the whole range permitted by boundary 10), returns an
identifier that does not sort strictly between the neighbors. -/
theorem c1_generate_escapes_bounds :
    lseq.Ident.cmp c1Left c1Right = Ordering.lt ∧
    ∀ r : Fin 10,
      c1Check LSEQStrategy.AddFromLeft r.val = true ∧
      c1Check LSEQStrategy.SubtractFromRight r.val = true := by
  constructor
  · decide
  · decide

/-- Lemma: `ensure_strategy` never changes or removes an entry that is already
present, at any depth. -/
theorem ensure_strategy_preserves (g : lseq.LSEQGenerator) (rnd : LSEQStrategy)
    (dep d : Nat) (s : LSEQStrategy) (hs : g.strategies d = some s) :
    (g.ensure_strategy rnd dep).strategies d = some s := by
  unfold lseq.LSEQGenerator.ensure_strategy
  split
  · exact hs
  next hnone =>
    by_cases hd : d = dep
    · subst hd
      rw [hs] at hnone
      simp at hnone
    · simp only []
      rw [if_neg hd]
      exact hs

/-- After `ensure_strategy`, the lookup that `get_strategy` unwraps is always
populated at that depth: either with the previously stored strategy or with
the freshly drawn one. -/
theorem get_strategy_ensure (g : lseq.LSEQGenerator) (rnd : LSEQStrategy)
    (dep : Nat) :
    ∃ t, (g.ensure_strategy rnd dep).get_strategy dep = some t ∧
      (g.strategies dep = some t ∨ (g.strategies dep = none ∧ t = rnd)) := by
  unfold lseq.LSEQGenerator.ensure_strategy lseq.LSEQGenerator.get_strategy
  split
  next hsome =>
    obtain ⟨t, ht⟩ := Option.isSome_iff_exists.mp hsome
    exact ⟨t, ht, Or.inl ht⟩
  next hnone =>
    refine ⟨rnd, ?_, Or.inr ⟨Option.not_isSome_iff_eq_none.mp hnone, rfl⟩⟩
    simp

/-- C5: on one generator instance, a strategy already assigned to a depth is
never changed or removed by a later `generate` call, whatever neighbors,
strategy draw, and randomness that call sees. -/
theorem c5_strategy_stable {R : Type} (g : lseq.LSEQGenerator) (replica : R)
    (left right : Option (lseq.Ident R)) (rnd : LSEQStrategy) (rand fuel : Nat)
    (d : Nat) (s : LSEQStrategy) (hs : g.strategies d = some s)
    (x : lseq.Ident R) (g2 : lseq.LSEQGenerator)
    (hgen : g.generate replica left right rnd rand fuel = some (x, g2)) :
    g2.strategies d = some s := by
  unfold lseq.LSEQGenerator.generate at hgen
  dsimp only at hgen
  rcases hsearch : lseq.searchDepthAux g.base
      ((left.getD (lseq.Ident.new replica 0 (g.base.get_bits 0))).digit)
      ((right.getD (lseq.Ident.new replica (g.base.get_max 0)
        (g.base.get_bits 0))).digit) fuel 0 with _ | ⟨dep, ivl⟩
  · rw [hsearch] at hgen
    simp at hgen
  · rw [hsearch] at hgen
    obtain ⟨t, ht, _⟩ := get_strategy_ensure g rnd dep
    simp only [ht] at hgen
    cases t <;>
      simp only [Option.some.injEq, Prod.mk.injEq] at hgen <;>
      · obtain ⟨-, hg2⟩ := hgen
        rw [← hg2]
        exact ensure_strategy_preserves g rnd dep d s hs

/-- Witness for C5: a generator whose depth-0 strategy is `AddFromLeft`
retains it across a `generate` call that reaches depth 0, even when the
random draw would have been `SubtractFromRight`. -/
theorem c5_witness :
    c5Gen.strategies 0 = some LSEQStrategy.AddFromLeft ∧
    lseq.LSEQGenerator.generate c5Gen 0 none none LSEQStrategy.SubtractFromRight 2 10 =
      some (⟨0, 35⟩, c5Gen) ∧
    c5Gen.strategies 0 = some LSEQStrategy.AddFromLeft :=
  ⟨rfl, by rfl,
    c5_strategy_stable c5Gen 0 none none LSEQStrategy.SubtractFromRight 2 10 0
      LSEQStrategy.AddFromLeft rfl ⟨0, 35⟩ c5Gen (by rfl)⟩

/-- C9: whenever the depth-search loop of `generate` completes, the strategy
lookup that Rust unwraps (`get_strategy` right after `ensure_strategy` at the
same depth) cannot fail, so `generate` returns a result: the panic branch of
the unwrap is unreachable. -/
theorem c9_strategy_lookup_succeeds {R : Type} (g : lseq.LSEQGenerator)
    (replica : R) (left right : Option (lseq.Ident R)) (rnd : LSEQStrategy)
    (rand fuel d : Nat) (ivl : Int)
    (hs : lseq.searchDepthAux g.base
      ((left.getD (lseq.Ident.new replica 0 (g.base.get_bits 0))).digit)
      ((right.getD (lseq.Ident.new replica (g.base.get_max 0)
        (g.base.get_bits 0))).digit) fuel 0 = some (d, ivl)) :
    (g.generate replica left right rnd rand fuel).isSome = true := by
  unfold lseq.LSEQGenerator.generate
  dsimp only
  rw [hs]
  obtain ⟨t, ht, _⟩ := get_strategy_ensure g rnd d
  simp only [ht]
  cases t <;> simp

/-- Witness for C9 at a concrete search run. -/
theorem c9_witness :
    (lseq.LSEQGenerator.generate defaultGen (0 : Nat) none none
      LSEQStrategy.AddFromLeft 5 10).isSome = true :=
  c9_strategy_lookup_succeeds defaultGen 0 none none LSEQStrategy.AddFromLeft
    5 10 0 30 rfl

/-- Soundness of the depth-search loop: a successful search returns the
interval of the returned depth, that interval is at least 1, and every depth
skipped on the way had interval below 1. -/
theorem searchDepthAux_inv (b : DoubleBase) (l r : Nat) :
    ∀ fuel start d ivl, lseq.searchDepthAux b l r fuel start = some (d, ivl) →
      start ≤ d ∧ ivl = b.interval l r d ∧ 1 ≤ ivl ∧
      ∀ j, start ≤ j → j < d → b.interval l r j < 1 := by
  intro fuel
  induction fuel with
  | zero =>
    intro start d ivl h
    simp [lseq.searchDepthAux] at h
  | succ fuel ih =>
    intro start d ivl h
    rw [lseq.searchDepthAux] at h
    by_cases hi : b.interval l r start < 1
    · rw [if_pos hi] at h
      obtain ⟨h1, h2, h3, h4⟩ := ih (start + 1) d ivl h
      refine ⟨by omega, h2, h3, ?_⟩
      intro j hj1 hj2
      rcases Nat.eq_or_lt_of_le hj1 with he | hlt
      · rw [← he]
        exact hi
      · exact h4 j (by omega) hj2
    · rw [if_neg hi] at h
      simp only [Option.some.injEq, Prod.mk.injEq] at h
      obtain ⟨hd, hivl⟩ := h
      subst hd
      refine ⟨le_rfl, hivl.symm, by omega, ?_⟩
      intro j hj1 hj2
      omega

/-- Termination of the depth-search loop: if some depth `D` has interval at
least 1 and the fuel covers `D`, the search succeeds. -/
theorem searchDepthAux_term (b : DoubleBase) (l r : Nat) (D : Nat)
    (hD : 1 ≤ b.interval l r D) :
    ∀ fuel start, start ≤ D → D < start + fuel →
      ∃ d ivl, lseq.searchDepthAux b l r fuel start = some (d, ivl) := by
  intro fuel
  induction fuel with
  | zero =>
    intro start h1 h2
    omega
  | succ fuel ih =>
    intro start h1 h2
    rw [lseq.searchDepthAux]
    by_cases hi : b.interval l r start < 1
    · rw [if_pos hi]
      refine ih (start + 1) ?_ (by omega)
      rcases Nat.eq_or_lt_of_le h1 with he | hlt
      · subst he
        omega
      · omega
    · rw [if_neg hi]
      exact ⟨start, _, rfl⟩

/-- C3: for well-formed (positive) digits of bit-length below 10,000, the
depth search of `generate` terminates within the larger raw bit length plus
one iterations (fuel `max + 1` suffices and the returned depth `d` satisfies
`d + 1 ≤ max`), and the depth it stops at is the shallowest depth whose
interval is at least 1. -/
theorem c3_depth_search_terminates (b : DoubleBase) (l r : Nat)
    (hinit : 0 < b.initial) (hl : 0 < l) (hr : 0 < r)
    (_hlsz : sigBits l < 10000) (_hrsz : sigBits r < 10000) :
    ∃ d ivl,
      lseq.searchDepthAux b l r (max (sigBits l) (sigBits r) + 1) 0 = some (d, ivl) ∧
      d + 1 ≤ max (sigBits l) (sigBits r) ∧
      1 ≤ ivl ∧ ivl = b.interval l r d ∧
      ∀ j, j < d → b.interval l r j < 1 := by
  set D := max (sigBits l - 1) (sigBits r - 1) with hDdef
  have hsl := sigBits_pos l hl
  have hsr := sigBits_pos r hr
  have hgb := get_bits_ge b hinit D
  have hD1 : 1 ≤ b.interval l r D := by
    unfold DoubleBase.interval
    dsimp only
    rw [if_pos ⟨by omega, by omega⟩]
    unfold DoubleBase.get_max
    have hb1 : 1 ≤ b.get_base D := by
      unfold DoubleBase.get_base
      omega
    have h2 : 2 ≤ 2 ^ b.get_base D :=
      calc (2 : Nat) = 2 ^ 1 := rfl
        _ ≤ 2 ^ b.get_base D := Nat.pow_le_pow_right (by norm_num) hb1
    omega
  obtain ⟨d, ivl, hsearch⟩ :=
    searchDepthAux_term b l r D hD1 (max (sigBits l) (sigBits r) + 1) 0
      (by omega) (by omega)
  obtain ⟨-, hivl, hge, hall⟩ := searchDepthAux_inv b l r _ 0 d ivl hsearch
  have hdD : d ≤ D := by
    by_contra hc
    push_neg at hc
    have := hall D (Nat.zero_le D) hc
    omega
  exact ⟨d, ivl, hsearch, by omega, hge, hivl, fun j hj => hall j (Nat.zero_le j) hj⟩

/-- Witness for C3 at concrete neighboring digits 34 and 35 (depth-0 values
2 and 3 under the default policy). -/
theorem c3_witness :
    (0 < (DoubleBase.new none).initial ∧ 0 < 34 ∧ 0 < 35 ∧
      sigBits 34 < 10000 ∧ sigBits 35 < 10000) ∧
    (∃ d ivl,
      lseq.searchDepthAux (DoubleBase.new none) 34 35
        (max (sigBits 34) (sigBits 35) + 1) 0 = some (d, ivl) ∧
      d + 1 ≤ max (sigBits 34) (sigBits 35) ∧
      1 ≤ ivl ∧ ivl = (DoubleBase.new none).interval 34 35 d ∧
      ∀ j, j < d → (DoubleBase.new none).interval 34 35 j < 1) :=
  ⟨⟨by decide, by decide, by decide, by decide, by decide⟩,
    c3_depth_search_terminates (DoubleBase.new none) 34 35 (by decide)
      (by decide) (by decide) (by decide) (by decide)⟩

theorem prevG_lt_get_bits (b : DoubleBase) (hinit : 0 < b.initial) (i : Nat) :
    prevG b i < b.get_bits i := by
  cases i with
  | zero =>
    simp only [prevG]
    rw [get_bits_zero b hinit]
    omega
  | succ j =>
    simp only [prevG]
    exact get_bits_strict_mono b hinit (by omega)

theorem get_bits_sub_prevG (b : DoubleBase) (hinit : 0 < b.initial) (i : Nat) :
    b.get_bits i - prevG b i = b.get_base i := by
  cases i with
  | zero =>
    simp only [prevG]
    rw [get_bits_zero b hinit]
    unfold DoubleBase.get_base
    omega
  | succ j =>
    simp only [prevG]
    rw [get_bits_succ b hinit j]
    omega

theorem prevG_le_get_bits (b : DoubleBase) (hinit : 0 < b.initial) {i D : Nat}
    (h : i ≤ D + 1) : prevG b i ≤ b.get_bits D := by
  cases i with
  | zero => simp [prevG]
  | succ j =>
    simp only [prevG]
    exact get_bits_mono b hinit (by omega)

/-- The depth-finding loop of `split` finds the unique depth whose cumulative
width equals the digit's logical length. -/
theorem findDepthAux_finds (b : DoubleBase) (hinit : 0 < b.initial) (D : Nat) :
    ∀ fuel j, j ≤ D → D < j + fuel →
      findDepthAux b (b.get_bits D) fuel j = some D := by
  intro fuel
  induction fuel with
  | zero =>
    intro j h1 h2
    omega
  | succ fuel ih =>
    intro j h1 h2
    rw [findDepthAux]
    by_cases h : b.get_bits D = b.get_bits j
    · have hj : D = j := (get_bits_strict_mono b hinit).injective h
      rw [if_pos h, hj]
    · rw [if_neg h]
      refine ih (j + 1) ?_ (by omega)
      rcases Nat.eq_or_lt_of_le h1 with he | hlt
      · exact absurd (by rw [he]) h
      · omega

/-- Invariant of the field-extraction loop of `split`: started at position
`i` with the remaining string of length `get_bits D - prevG i`, it produces
one field per remaining depth, each bounded by its depth's field width, and
concatenating them (onto any accumulator) reproduces the remaining value. -/
theorem splitAux_spec (b : DoubleBase) (hinit : 0 < b.initial) (D : Nat) :
    ∀ fuel i skip len val,
      i + fuel = D + 1 →
      skip = prevG b i + 1 →
      len = b.get_bits D - prevG b i →
      val < 2 ^ len →
      (splitAux b fuel i skip len val).length = fuel ∧
      (∀ acc, concatFields b i acc (splitAux b fuel i skip len val) =
        acc * 2 ^ len + val) ∧
      ∀ q, q < fuel →
        (splitAux b fuel i skip len val).getD q 0 < 2 ^ b.get_base (i + q) := by
  intro fuel
  induction fuel with
  | zero =>
    intro i skip len val hiD hskip hlen hval
    have hi : i = D + 1 := by omega
    subst hi
    have hpg : prevG b (D + 1) = b.get_bits D := rfl
    have hlen0 : len = 0 := by omega
    subst hlen0
    have hval0 : val = 0 := by omega
    subst hval0
    refine ⟨rfl, ?_, ?_⟩
    · intro acc
      simp [splitAux, concatFields]
    · intro q hq
      omega
  | succ fuel ih =>
    intro i skip len val hiD hskip hlen hval
    have hiD' : i ≤ D := by omega
    have hpg : prevG b i < b.get_bits i := prevG_lt_get_bits b hinit i
    have hw : b.get_bits i - prevG b i = b.get_base i := get_bits_sub_prevG b hinit i
    have hGle : b.get_bits i ≤ b.get_bits D := get_bits_mono b hinit hiD'
    have hpgle : prevG b i ≤ b.get_bits D := prevG_le_get_bits b hinit (by omega)
    have e1 : len - (b.get_bits i - skip + 1) = b.get_bits D - b.get_bits i := by
      omega
    have e2 : skip + (b.get_bits i - skip + 1) = b.get_bits i + 1 := by
      omega
    have hstep : splitAux b (fuel + 1) i skip len val =
        (val / 2 ^ (b.get_bits D - b.get_bits i)) ::
          splitAux b fuel (i + 1) (b.get_bits i + 1)
            (b.get_bits D - b.get_bits i)
            (val % 2 ^ (b.get_bits D - b.get_bits i)) := by
      rw [splitAux, e1, e2]
    have hrest : val % 2 ^ (b.get_bits D - b.get_bits i) <
        2 ^ (b.get_bits D - b.get_bits i) :=
      Nat.mod_lt _ (Nat.pos_pow_of_pos _ (by norm_num))
    obtain ⟨ihlen, ihconcat, ihgetD⟩ :=
      ih (i + 1) (b.get_bits i + 1) (b.get_bits D - b.get_bits i)
        (val % 2 ^ (b.get_bits D - b.get_bits i)) (by omega) rfl rfl hrest
    have hwt : b.get_base i + (b.get_bits D - b.get_bits i) = len := by
      omega
    refine ⟨?_, ?_, ?_⟩
    · rw [hstep]
      simp [ihlen]
    · intro acc
      rw [hstep]
      show concatFields b (i + 1)
          (acc * 2 ^ b.get_base i + val / 2 ^ (b.get_bits D - b.get_bits i)) _ =
        acc * 2 ^ len + val
      rw [ihconcat]
      have hdam := Nat.div_add_mod val (2 ^ (b.get_bits D - b.get_bits i))
      calc (acc * 2 ^ b.get_base i + val / 2 ^ (b.get_bits D - b.get_bits i)) *
            2 ^ (b.get_bits D - b.get_bits i) +
            val % 2 ^ (b.get_bits D - b.get_bits i) =
          acc * (2 ^ b.get_base i * 2 ^ (b.get_bits D - b.get_bits i)) +
            (2 ^ (b.get_bits D - b.get_bits i) *
              (val / 2 ^ (b.get_bits D - b.get_bits i)) +
              val % 2 ^ (b.get_bits D - b.get_bits i)) := by ring
        _ = acc * 2 ^ len + val := by rw [← pow_add, hwt, hdam]
    · intro q hq
      rw [hstep]
      cases q with
      | zero =>
        simp only [List.getD_cons_zero, Nat.add_zero]
        rw [Nat.div_lt_iff_lt_mul (Nat.pos_pow_of_pos _ (by norm_num)),
          ← pow_add, hwt]
        exact hval
      | succ q =>
        simp only [List.getD_cons_succ]
        have : i + 1 + q = i + (q + 1) := by omega
        rw [← this]
        exact ihgetD q (by omega)

/-- Lemma: `split` round-trips any digit whose logical length is a cumulative width:
it succeeds, returns `depth + 1` fields of the per-depth field widths, and
their concatenation reproduces the digit's value bits (the digit without its
guard bit). -/
theorem split_round_trip (b : DoubleBase) (hinit : 0 < b.initial)
    (D digit : Nat) (hdig : sigBits digit = b.get_bits D + 1) :
    ∃ fields, b.split digit = some fields ∧ fields.length = D + 1 ∧
      concatFields b 0 0 fields = digit % 2 ^ b.get_bits D ∧
      ∀ q, q < D + 1 → fields.getD q 0 < 2 ^ b.get_base q := by
  have hsize : sigBits digit - 1 = b.get_bits D := by omega
  have hged := get_bits_ge b hinit D
  unfold DoubleBase.split
  rw [hsize]
  dsimp only
  rw [findDepthAux_finds b hinit D (b.get_bits D + 1) 0 (by omega) (by omega)]
  have hval : digit % 2 ^ b.get_bits D < 2 ^ (b.get_bits D - prevG b 0) :=
    Nat.mod_lt _ (Nat.pos_pow_of_pos _ (by norm_num))
  obtain ⟨hlen, hconcat, hgetD⟩ :=
    splitAux_spec b hinit D (D + 1) 0 1 (b.get_bits D)
      (digit % 2 ^ b.get_bits D) (by omega) rfl rfl
      (Nat.mod_lt _ (Nat.pos_pow_of_pos _ (by norm_num)))
  refine ⟨_, rfl, hlen, ?_, ?_⟩
  · rw [hconcat 0]
    omega
  · intro q hq
    have := hgetD q hq
    rwa [Nat.zero_add] at this

/-- Lemma: `normalize` always produces a digit of logical length exactly
`get_bits depth`: its value lies in `[2 ^ get_bits d, 2 ^ (get_bits d + 1))`. -/
theorem normalize_mem (b : DoubleBase) (d digit : Nat) (hd : 0 < digit) :
    2 ^ b.get_bits d ≤ b.normalize digit d ∧
      b.normalize digit d < 2 ^ (b.get_bits d + 1) := by
  obtain ⟨hlo, hhi⟩ := sigBits_spec digit hd
  have hp := sigBits_pos digit hd
  have hhi' : digit < 2 ^ (sigBits digit - 1 + 1) := by
    have : sigBits digit - 1 + 1 = sigBits digit := by omega
    rw [this]
    exact hhi
  unfold DoubleBase.normalize
  dsimp only
  by_cases h : sigBits digit - 1 < b.get_bits d
  · rw [if_pos h, Nat.shiftLeft_eq]
    constructor
    · calc 2 ^ b.get_bits d
          = 2 ^ (sigBits digit - 1) * 2 ^ (b.get_bits d - (sigBits digit - 1)) := by
            rw [← pow_add]
            congr 1
            omega
        _ ≤ digit * 2 ^ (b.get_bits d - (sigBits digit - 1)) :=
            Nat.mul_le_mul_right _ hlo
    · calc digit * 2 ^ (b.get_bits d - (sigBits digit - 1))
          < 2 ^ (sigBits digit - 1 + 1) * 2 ^ (b.get_bits d - (sigBits digit - 1)) :=
            (Nat.mul_lt_mul_right (Nat.pos_pow_of_pos _ (by norm_num))).mpr hhi'
        _ = 2 ^ (b.get_bits d + 1) := by
            rw [← pow_add]
            congr 1
            omega
  · rw [if_neg h, Nat.shiftRight_eq_div_pow]
    constructor
    · rw [Nat.le_div_iff_mul_le (Nat.pos_pow_of_pos _ (by norm_num)),
        ← pow_add]
      calc 2 ^ (b.get_bits d + (sigBits digit - 1 - b.get_bits d)) =
          2 ^ (sigBits digit - 1) := by
            congr 1
            omega
        _ ≤ digit := hlo
    · rw [Nat.div_lt_iff_lt_mul (Nat.pos_pow_of_pos _ (by norm_num)),
        ← pow_add]
      calc digit < 2 ^ (sigBits digit - 1 + 1) := hhi'
        _ ≤ 2 ^ (b.get_bits d + 1 + (sigBits digit - 1 - b.get_bits d)) :=
            Nat.pow_le_pow_right (by norm_num) (by omega)

/-- The inline truncate-or-pad computation in the strategy arms of `generate`
is exactly `normalize`. -/
theorem inline_norm_eq (b : DoubleBase) (d digit : Nat) :
    (if sigBits digit - 1 ≥ b.get_bits d then
      digit >>> (sigBits digit - 1 - b.get_bits d)
    else digit <<< (b.get_bits d - (sigBits digit - 1))) = b.normalize digit d := by
  unfold DoubleBase.normalize
  dsimp only
  by_cases h : sigBits digit - 1 < b.get_bits d
  · rw [if_neg (by omega), if_pos h]
  · rw [if_pos (by omega), if_neg h]

/-- Case analysis on which branch `interval` took. -/
theorem interval_cases (b : DoubleBase) (l r d : Nat) :
    (sigBits l - 1 < b.get_bits d ∧ sigBits r - 1 < b.get_bits d ∧
      b.interval l r d = (b.get_max d : Int)) ∨
    (¬(sigBits l - 1 < b.get_bits d ∧ sigBits r - 1 < b.get_bits d) ∧
      b.interval l r d =
        (b.normalize r d : Int) - (b.normalize l d : Int) - 1) := by
  unfold DoubleBase.interval
  dsimp only
  by_cases h : sigBits l - 1 < b.get_bits d ∧ sigBits r - 1 < b.get_bits d
  · left
    exact ⟨h.1, h.2, by rw [if_pos h]⟩
  · right
    exact ⟨h, by rw [if_neg h]⟩

/-- Setting the guard bit on any value below `2 ^ (t + 1)` yields a digit of
logical length exactly `t`. -/
theorem lor_guard_sigBits (t y : Nat) (hy : y < 2 ^ (t + 1)) :
    sigBits (y ||| 2 ^ t) = t + 1 := by
  apply sigBits_eq_of
  · by_contra h
    push_neg at h
    have hbit : (y ||| 2 ^ t).testBit t = true := by
      rw [Nat.testBit_lor, Nat.testBit_two_pow_self]
      simp
    have hfalse := Nat.testBit_lt_two_pow h
    rw [hfalse] at hbit
    cases hbit
  · exact Nat.or_lt_two_pow hy (Nat.pow_lt_pow_right (by norm_num) (by omega))

/-- Bound for the grow-from-left arm: adding any delta within the interval to
the normalized left digit stays below `2 ^ (get_bits d + 1)`, so the guard
bit is never overrun. -/
theorem gen_add_bound (b : DoubleBase) (hinit : 0 < b.initial)
    (L Rr d : Nat) (ivl : Int)
    (hL : ∃ kl, sigBits L = b.get_bits kl + 1) (hRpos : 0 < Rr)
    (hivl : ivl = b.interval L Rr d)
    (plus : Nat) (hplusle : (plus : Int) ≤ ivl) :
    b.normalize L d + plus < 2 ^ (b.get_bits d + 1) := by
  obtain ⟨kl, hkl⟩ := hL
  have hLpos : 0 < L := by
    by_contra h
    have hL0 : L = 0 := by omega
    rw [hL0, sigBits_zero] at hkl
    omega
  obtain ⟨hLlo, hLhi⟩ := sigBits_spec L hLpos
  rw [hivl] at hplusle
  rcases interval_cases b L Rr d with ⟨hll, hrl, hint⟩ | ⟨hcond, hint⟩
  · -- early-return branch: both digits shorter than the depth's width
    have hkl' : sigBits L - 1 = b.get_bits kl := by omega
    have hkld : kl < d := by
      have hGlt : b.get_bits kl < b.get_bits d := by omega
      exact (get_bits_strict_mono b hinit).lt_iff_lt.mp hGlt
    have hd1 : d - 1 + 1 = d := by omega
    have hbits : b.get_bits d = b.get_bits (d - 1) + b.get_base d := by
      have h := get_bits_succ b hinit (d - 1)
      rw [hd1] at h
      exact h
    have hklle : b.get_bits kl ≤ b.get_bits (d - 1) :=
      get_bits_mono b hinit (by omega)
    have hbase : b.get_base d ≤ b.get_bits d - b.get_bits kl := by omega
    have hplusb : plus ≤ 2 ^ b.get_base d - 1 := by
      rw [hint] at hplusle
      unfold DoubleBase.get_max at hplusle
      exact_mod_cast hplusle
    have hLle : L ≤ 2 ^ (b.get_bits kl + 1) - 1 := by
      rw [hkl] at hLhi
      omega
    unfold DoubleBase.normalize
    dsimp only
    rw [if_pos (by omega : sigBits L - 1 < b.get_bits d), Nat.shiftLeft_eq, hkl']
    have hmul : L * 2 ^ (b.get_bits d - b.get_bits kl) ≤
        (2 ^ (b.get_bits kl + 1) - 1) * 2 ^ (b.get_bits d - b.get_bits kl) :=
      Nat.mul_le_mul_right _ hLle
    have e1 : (2 ^ (b.get_bits kl + 1) - 1) * 2 ^ (b.get_bits d - b.get_bits kl) =
        2 ^ (b.get_bits d + 1) - 2 ^ (b.get_bits d - b.get_bits kl) := by
      rw [Nat.sub_mul, one_mul, ← pow_add]
      congr 2
      omega
    have e2 : 2 ^ b.get_base d ≤ 2 ^ (b.get_bits d - b.get_bits kl) :=
      Nat.pow_le_pow_right (by norm_num) hbase
    have e3 : 2 ^ (b.get_bits d - b.get_bits kl) ≤ 2 ^ (b.get_bits d + 1) :=
      Nat.pow_le_pow_right (by norm_num) (by omega)
    have e4 : 0 < 2 ^ b.get_base d := Nat.pos_pow_of_pos _ (by norm_num)
    omega
  · -- normalize-and-subtract branch
    rw [hint] at hplusle
    have hrn := (normalize_mem b d Rr hRpos).2
    have hln := (normalize_mem b d L hLpos).1
    have hchain : b.normalize L d + plus + 1 ≤ b.normalize Rr d := by
      have h1 : (plus : Int) + (b.normalize L d : Int) + 1 ≤ (b.normalize Rr d : Int) := by
        omega
      exact_mod_cast by omega
    omega

/-- C4: for well-formed neighbors (each resolved digit's logical length is
the cumulative width of some depth) and a successful depth search stopping at
depth `d`, the digit produced by `generate` has logical
(guard-bit-adjusted) length equal to the cumulative bit-width of depth `d`
(and of no other depth), `split` succeeds on it, yielding `d + 1` fields of
the per-depth field widths (most-significant first) whose concatenation
reproduces the digit's value bits exactly. -/
theorem c4_generate_digit_decodes {R : Type} (g : lseq.LSEQGenerator)
    (replica : R) (left right : Option (lseq.Ident R)) (rnd : LSEQStrategy)
    (rand fuel : Nat) (d : Nat) (ivl : Int)
    (hinit : 0 < g.base.initial)
    (hwl : ∃ kl, sigBits (left.getD (lseq.Ident.new replica 0
      (g.base.get_bits 0))).digit = g.base.get_bits kl + 1)
    (hwr : ∃ kr, sigBits (right.getD (lseq.Ident.new replica (g.base.get_max 0)
      (g.base.get_bits 0))).digit = g.base.get_bits kr + 1)
    (hs : lseq.searchDepthAux g.base
      (left.getD (lseq.Ident.new replica 0 (g.base.get_bits 0))).digit
      (right.getD (lseq.Ident.new replica (g.base.get_max 0)
        (g.base.get_bits 0))).digit fuel 0 = some (d, ivl))
    (x : lseq.Ident R) (g2 : lseq.LSEQGenerator)
    (hgen : g.generate replica left right rnd rand fuel = some (x, g2)) :
    sigBits x.digit = g.base.get_bits d + 1 ∧
    (∀ d2, sigBits x.digit = g.base.get_bits d2 + 1 → d2 = d) ∧
    ∃ fields, g.base.split x.digit = some fields ∧
      fields.length = d + 1 ∧
      concatFields g.base 0 0 fields = x.digit % 2 ^ g.base.get_bits d ∧
      ∀ q, q < d + 1 → fields.getD q 0 < 2 ^ g.base.get_base q := by
  unfold lseq.LSEQGenerator.generate at hgen
  dsimp only at hgen
  set L := (left.getD (lseq.Ident.new replica 0 (g.base.get_bits 0))).digit
    with hLdef
  set Rr := (right.getD (lseq.Ident.new replica (g.base.get_max 0)
    (g.base.get_bits 0))).digit with hRdef
  obtain ⟨-, hivl, hge, -⟩ := searchDepthAux_inv g.base L Rr fuel 0 d ivl hs
  have hRpos : 0 < Rr := by
    obtain ⟨kr, hkr⟩ := hwr
    by_contra h
    have h0 : Rr = 0 := by omega
    rw [h0, sigBits_zero] at hkr
    omega
  rw [hs] at hgen
  obtain ⟨t, ht, -⟩ := get_strategy_ensure g rnd d
  simp only [ht] at hgen
  set sp : Int := max (min ivl (g.boundary : Int)) 1 with hspdef
  have hsp1 : (1 : Int) ≤ sp := le_max_right _ _
  have hsple : sp ≤ ivl := max_le (min_le_left _ _) hge
  have hplus : ((rand % sp.toNat + 1 : Nat) : Int) ≤ ivl := by
    have h1 : rand % sp.toNat < sp.toNat := Nat.mod_lt _ (by omega)
    have h3 : (sp.toNat : Int) = sp := Int.toNat_of_nonneg (by omega)
    have h2 : ((rand % sp.toNat + 1 : Nat) : Int) ≤ (sp.toNat : Int) := by
      exact_mod_cast h1
    omega
  have hmain : sigBits x.digit = g.base.get_bits d + 1 := by
    cases t with
    | AddFromLeft =>
      simp only [Option.some.injEq, Prod.mk.injEq] at hgen
      obtain ⟨hx, -⟩ := hgen
      rw [← hx]
      simp only [lseq.Ident.new]
      apply lor_guard_sigBits
      rw [inline_norm_eq g.base d L]
      exact gen_add_bound g.base hinit L Rr d ivl hwl hRpos hivl _ hplus
    | SubtractFromRight =>
      simp only [Option.some.injEq, Prod.mk.injEq] at hgen
      obtain ⟨hx, -⟩ := hgen
      rw [← hx]
      simp only [lseq.Ident.new]
      apply lor_guard_sigBits
      rw [inline_norm_eq g.base d Rr]
      have hub := (normalize_mem g.base d Rr hRpos).2
      omega
  refine ⟨hmain, ?_, ?_⟩
  · intro d2 h2
    exact (get_bits_strict_mono g.base hinit).injective (by omega)
  · exact split_round_trip g.base hinit d x.digit hmain

/-- Witness for C4: generating between the depth-0 digits 34 (value 2) and 35
(value 3) with the shrink-from-right strategy and randomness oracle 4; the
result digit is 2235 (depth-1 fields (2, 59)). -/
theorem c4_witness :
    0 < defaultGen.base.initial ∧
    (∃ kl, sigBits ((some (⟨0, 34⟩ : lseq.Ident Nat)).getD
        (lseq.Ident.new 0 0 (defaultGen.base.get_bits 0))).digit =
      defaultGen.base.get_bits kl + 1) ∧
    (∃ kr, sigBits ((some (⟨0, 35⟩ : lseq.Ident Nat)).getD
        (lseq.Ident.new 0 (defaultGen.base.get_max 0)
          (defaultGen.base.get_bits 0))).digit =
      defaultGen.base.get_bits kr + 1) ∧
    lseq.searchDepthAux defaultGen.base
      ((some (⟨0, 34⟩ : lseq.Ident Nat)).getD
        (lseq.Ident.new 0 0 (defaultGen.base.get_bits 0))).digit
      ((some (⟨0, 35⟩ : lseq.Ident Nat)).getD
        (lseq.Ident.new 0 (defaultGen.base.get_max 0)
          (defaultGen.base.get_bits 0))).digit 10 0 = some (1, 63) ∧
    lseq.LSEQGenerator.generate defaultGen 0 (some ⟨0, 34⟩) (some ⟨0, 35⟩)
      LSEQStrategy.SubtractFromRight 4 10 =
      some (⟨0, 2235⟩, defaultGen.ensure_strategy LSEQStrategy.SubtractFromRight 1) ∧
    (sigBits (⟨0, 2235⟩ : lseq.Ident Nat).digit = defaultGen.base.get_bits 1 + 1 ∧
      (∀ d2, sigBits (⟨0, 2235⟩ : lseq.Ident Nat).digit =
        defaultGen.base.get_bits d2 + 1 → d2 = 1) ∧
      ∃ fields, defaultGen.base.split (⟨0, 2235⟩ : lseq.Ident Nat).digit =
          some fields ∧
        fields.length = 1 + 1 ∧
        concatFields defaultGen.base 0 0 fields =
          (⟨0, 2235⟩ : lseq.Ident Nat).digit % 2 ^ defaultGen.base.get_bits 1 ∧
        ∀ q, q < 1 + 1 → fields.getD q 0 < 2 ^ defaultGen.base.get_base q) :=
  ⟨by decide, ⟨0, by decide⟩, ⟨0, by decide⟩, by decide, by rfl,
    c4_generate_digit_decodes defaultGen 0 (some ⟨0, 34⟩) (some ⟨0, 35⟩)
      LSEQStrategy.SubtractFromRight 4 10 1 63 (by decide) ⟨0, by decide⟩
      ⟨0, by decide⟩ (by decide) ⟨0, 2235⟩
      (defaultGen.ensure_strategy LSEQStrategy.SubtractFromRight 1) (by rfl)⟩

end LSeq
